import Mathlib

/-!
Verification of the bookmarkct content-extraction pipeline and rate limiter.
Definitions are shallow embeddings of the TypeScript source
(`src/app/api/x/tweet` route logic and `src/app/api/bookmarks/route.ts`);
theorems settle the specification claims against them.
-/

/-! ## Rate limiter (src/app/api/bookmarks/route.ts) -/

/-- The per-identity bucket stored in the in-memory map. -/
structure Bucket where
  minuteKey : String
  minuteCount : Nat
  dayKey : String
  dayCount : Nat
  dayChars : Nat
deriving DecidableEq, Repr

/-- The three configurable ceilings (env defaults 10 / 200 / 200000). -/
structure LimitConfig where
  RPM : Nat
  DAILY : Nat
  DAILY_CHARS : Nat
deriving DecidableEq, Repr

/-- The current UTC keys computed by `nowKeys()`. -/
structure NowKeys where
  dayKey : String
  minuteKey : String
deriving DecidableEq, Repr

def minuteLimitMsg (cfg : LimitConfig) : String :=
  "Rate limit: too many requests. Max " ++ toString cfg.RPM ++ " per minute."

def dayLimitMsg (cfg : LimitConfig) : String :=
  "Daily limit reached. Max " ++ toString cfg.DAILY ++ " per day."

def charLimitMsg (cfg : LimitConfig) : String :=
  "Daily character limit reached. Max " ++ toString cfg.DAILY_CHARS ++ " chars per day."

/-- The minute/day window resets `enforceLimits` applies to an existing bucket
before checking the ceilings. -/
def applyRollovers (now : NowKeys) (b : Bucket) : Bucket :=
  let b1 := if b.minuteKey ≠ now.minuteKey
    then { b with minuteKey := now.minuteKey, minuteCount := 0 } else b
  if b1.dayKey ≠ now.dayKey
    then { b1 with dayKey := now.dayKey, dayCount := 0, dayChars := 0 } else b1

/-- `enforceLimits`: returns `(rejection message?, bucket stored in the map)`.
`none` as first component means the request is accepted. -/
def enforceLimits (cfg : LimitConfig) (now : NowKeys) (existing : Option Bucket)
    (sourceTextLength : Nat) : Option String × Bucket :=
  match existing with
  | none =>
    (none, { minuteKey := now.minuteKey, minuteCount := 1,
             dayKey := now.dayKey, dayCount := 1, dayChars := sourceTextLength })
  | some b0 =>
    let b2 := applyRollovers now b0
    if b2.minuteCount + 1 > cfg.RPM then (some (minuteLimitMsg cfg), b2)
    else if b2.dayCount + 1 > cfg.DAILY then (some (dayLimitMsg cfg), b2)
    else if b2.dayChars + sourceTextLength > cfg.DAILY_CHARS then (some (charLimitMsg cfg), b2)
    else (none, { b2 with minuteCount := b2.minuteCount + 1,
                          dayCount := b2.dayCount + 1,
                          dayChars := b2.dayChars + sourceTextLength })

/-- The first violated ceiling, checked in the order of the source:
per-minute count, per-day count, per-day characters. -/
def firstViolation (cfg : LimitConfig) (b : Bucket) (n : Nat) : Option String :=
  if b.minuteCount + 1 > cfg.RPM then some (minuteLimitMsg cfg)
  else if b.dayCount + 1 > cfg.DAILY then some (dayLimitMsg cfg)
  else if b.dayChars + n > cfg.DAILY_CHARS then some (charLimitMsg cfg)
  else none

/-! ## Locator parser (extractTweetId) -/

/-- The ECMAScript whitespace class (used by `String.prototype.trim` and `\s`). -/
def isJsWhitespaceChar (c : Char) : Bool :=
  let n := c.toNat
  n == 9 || n == 10 || n == 11 || n == 12 || n == 13 || n == 32 ||
  n == 160 || n == 0x1680 || (decide (0x2000 ≤ n) && decide (n ≤ 0x200a)) ||
  n == 0x2028 || n == 0x2029 || n == 0x202f || n == 0x205f || n == 0xfeff

/-- `String.prototype.trim` on a character list. -/
def jsTrimList (cs : List Char) : List Char :=
  ((cs.dropWhile isJsWhitespaceChar).reverse.dropWhile isJsWhitespaceChar).reverse

/-- `String.prototype.trim`. -/
def jsTrim (s : String) : String := String.mk (jsTrimList s.data)

/-- `\d`: an ASCII decimal digit. -/
def isDigitChar (c : Char) : Bool := c.isDigit

/-- The anchored test `/^\d{5,30}$/.test s`. -/
def isPureTweetId (s : String) : Bool :=
  decide (5 ≤ s.data.length) && decide (s.data.length ≤ 30) && s.data.all isDigitChar

def statusLit : List Char := "/status/".data

/-- Match of `\/status\/(\d{5,30})` anchored at the front of `cs`, returning the
captured digits (greedy, capped at 30, at least 5 required). -/
def matchStatusAt (cs : List Char) : Option (List Char) :=
  if cs.take 8 = statusLit then
    let ds := ((cs.drop 8).takeWhile isDigitChar).take 30
    if 5 ≤ ds.length then some ds else none
  else none

/-- First (leftmost) match of `\/status\/(\d{5,30})` in `cs`. -/
def findStatusMatch : List Char → Option (List Char)
  | [] => none
  | c :: rest =>
    match matchStatusAt (c :: rest) with
    | some ds => some ds
    | none => findStatusMatch rest

def iWebLit : List Char := "/i/web/status/".data

/-- Match of `\/i\/web\/status\/(\d{5,30})` anchored at the front of `cs`. -/
def matchIWebAt (cs : List Char) : Option (List Char) :=
  if cs.take 14 = iWebLit then
    let ds := ((cs.drop 14).takeWhile isDigitChar).take 30
    if 5 ≤ ds.length then some ds else none
  else none

/-- First (leftmost) match of `\/i\/web\/status\/(\d{5,30})` in `cs`. -/
def findIWebMatch : List Char → Option (List Char)
  | [] => none
  | c :: rest =>
    match matchIWebAt (c :: rest) with
    | some ds => some ds
    | none => findIWebMatch rest

/-- `extractTweetId`: trim; return the input if it is purely 5–30 digits; else
the first `/status/<digits>` match; else the first `/i/web/status/<digits>`
match; else `null`. -/
def extractTweetId (input : String) : Option String :=
  let s := jsTrim input
  if isPureTweetId s then some s
  else
    match findStatusMatch s.data with
    | some ds => some (String.mk ds)
    | none =>
      match findIWebMatch s.data with
      | some ds => some (String.mk ds)
      | none => none

/-! ## URL regex, mostly-a-link classifier, host check, redirect resolution -/

/-- Case-insensitive literal match: strip `pat` (given lowercase) from the
front of `cs`, returning the remainder. -/
def ciPrefixDrop : List Char → List Char → Option (List Char)
  | [], cs => some cs
  | _ :: _, [] => none
  | p :: ps, c :: cs2 => if c.toLower = p then ciPrefixDrop ps cs2 else none

def httpPat : List Char := ['h', 't', 't', 'p']

def sSlashPat : List Char := ['s', ':', '/', '/']

def slashPat : List Char := [':', '/', '/']

/-- A character matched by `[^\s)]`. -/
def isUrlBodyChar (c : Char) : Bool := !(isJsWhitespaceChar c) && c != ')'

/-- Match of `https?:\/\/[^\s)]+` (case-insensitive) anchored at the front of
`cs`, returning the length of the (greedy) match. -/
def matchHttpLen (cs : List Char) : Option Nat :=
  match ciPrefixDrop httpPat cs with
  | none => none
  | some r =>
    match ciPrefixDrop sSlashPat r with
    | some r2 =>
      let b := r2.takeWhile isUrlBodyChar
      if b.length == 0 then none else some (8 + b.length)
    | none =>
      match ciPrefixDrop slashPat r with
      | some r2 =>
        let b := r2.takeWhile isUrlBodyChar
        if b.length == 0 then none else some (7 + b.length)
      | none => none

/-- First (leftmost) match of `https?:\/\/[^\s)]+` in `cs` (the matched text). -/
def findHttp : List Char → Option (List Char)
  | [] => none
  | c :: rest =>
    match matchHttpLen (c :: rest) with
    | some n => some ((c :: rest).take n)
    | none => findHttp rest

/-- `getFirstHttpUrl`: the first URL match in the text, or `null`. -/
def getFirstHttpUrl (text : String) : Option String :=
  (findHttp text.data).map String.mk

/-- One global scan of the URL regex: the number of matches (`.match(...).length`)
together with the text with every match removed (`.replace(..., "")`).
Fuel-indexed so the recursion is structural; each step consumes at least one
character, so `fuel = cs.length` is always enough. -/
def httpScanFuel : Nat → List Char → Nat × List Char
  | 0, _ => (0, [])
  | _ + 1, [] => (0, [])
  | fuel + 1, c :: rest =>
    match matchHttpLen (c :: rest) with
    | some n =>
      let r := httpScanFuel fuel ((c :: rest).drop n)
      (r.1 + 1, r.2)
    | none =>
      let r := httpScanFuel fuel rest
      (r.1, c :: r.2)

def httpScan (cs : List Char) : Nat × List Char := httpScanFuel cs.length cs

/-- `.replace(/\s+/g, " ")`: each whitespace run becomes a single space. -/
def collapseWsRunsFuel : Nat → List Char → List Char
  | 0, _ => []
  | _ + 1, [] => []
  | fuel + 1, c :: rest =>
    if isJsWhitespaceChar c then
      ' ' :: collapseWsRunsFuel fuel (rest.dropWhile isJsWhitespaceChar)
    else c :: collapseWsRunsFuel fuel rest

def collapseWsRuns (cs : List Char) : List Char := collapseWsRunsFuel cs.length cs

/-- `looksLikeMostlyLink`: trim; false when empty or without URL match; else
true exactly when the text with URLs removed and whitespace collapsed and
trimmed has length at most 40. -/
def looksLikeMostlyLink (text : String) : Bool :=
  let t := jsTrimList text.data
  if t.isEmpty then false
  else if (httpScan t).1 == 0 then false
  else decide ((jsTrimList (collapseWsRuns (httpScan t).2)).length ≤ 40)

/-- `.replace(/^www\./, "")` (single anchored, case-sensitive replacement). -/
def stripLeadingWww (host : List Char) : List Char :=
  if host.take 4 = "www.".data then host.drop 4 else host

/-- The host-based refusal in `tryFetchArticleText`:
`host.endsWith("x.com") || host.endsWith("twitter.com")` after stripping a
leading `www.` and lowercasing. -/
def hostRefusesArticle (hostname : String) : Bool :=
  let host := (stripLeadingWww hostname.data).map Char.toLower
  "x.com".data.isSuffixOf host || "twitter.com".data.isSuffixOf host

/-- Modelled from the spec: refuse exactly the platform's own domain — the
exact domain `x.com` or `twitter.com`, or any subdomain of one of them. -/
def specHostRefuses (hostname : String) : Bool :=
  let host := (stripLeadingWww hostname.data).map Char.toLower
  host == "x.com".data || host == "twitter.com".data ||
  ".x.com".data.isSuffixOf host || ".twitter.com".data.isSuffixOf host

/-- The outcome of the single `fetch` performed by `resolveRedirect`: the
promise either fulfills with a response (whose final URL is `res.url`) or
rejects (network error, or the 9-second abort). -/
inductive FetchResult where
  | success (resUrl : String)
  | failure (errMsg : String)
deriving DecidableEq, Repr

/-- `resolveRedirect`: the body is `try { const res = await fetch(...);
return res.url || url; } finally { clearTimeout(timeout); }` — on fulfillment
it returns `res.url` (or the original `url` when `res.url` is empty); on
rejection the exception propagates, since the `try` has no `catch`. -/
def resolveRedirect (outcome : FetchResult) (url : String) : Except String String :=
  match outcome with
  | .success resUrl => .ok (if resUrl.isEmpty then url else resUrl)
  | .failure e => .error e

/-- Step 1 of the `GET` orchestration: when the expanded text is mostly a link
and a first URL exists, `resolvedUrl = await resolveRedirect(first)` — any
exception from `resolveRedirect` propagates to `GET`'s top-level catch. -/
def resolveStepInGET (expandedText : String) (outcome : FetchResult) :
    Except String (Option String) :=
  if looksLikeMostlyLink expandedText then
    match getFirstHttpUrl expandedText with
    | some first => (resolveRedirect outcome first).map some
    | none => Except.ok none
  else Except.ok none

/-! ## Thread assembly (fetchThreadTweets) and GET orchestration -/

/-- A collected thread item: `{ id, text, created_at? }` (text already run
through link expansion; the timestamp as milliseconds, absent when the upstream
sent none). -/
structure ThreadItem where
  id : String
  text : String
  created_at : Option Nat
deriving DecidableEq, Repr

/-- The sort key `created_at ? new Date(created_at).getTime() : 0`. -/
def itemTime (it : ThreadItem) : Nat := it.created_at.getD 0

/-- The comparator `(a, b) => ta - tb` as an ordering relation. -/
def threadLE (a b : ThreadItem) : Prop := itemTime a ≤ itemTime b

instance : DecidableRel threadLE := fun _ _ => Nat.decLe _ _

instance : IsTotal ThreadItem threadLE := ⟨fun _ _ => Nat.le_total _ _⟩

instance : IsTrans ThreadItem threadLE := ⟨fun _ _ _ hab hbc => Nat.le_trans hab hbc⟩

/-- One page of the conversation-search response: its (valid) items and the
optional `meta.next_token`. -/
structure SearchPage where
  items : List ThreadItem
  nextToken : Option String
deriving Repr

/-- The paging loop of `fetchThreadTweets`: while fewer than the cap have been
collected, append the next page's items; stop when the upstream signals no
continuation token (or yields no further page). -/
def collectPages (maxTweets : Nat) : List SearchPage → List ThreadItem → List ThreadItem
  | [], acc => acc
  | p :: rest, acc =>
    if acc.length < maxTweets then
      match p.nextToken with
      | some _ => collectPages maxTweets rest (acc ++ p.items)
      | none => acc ++ p.items
    else acc

/-- The `seen`-set filter: keep an item only when its id was not seen before. -/
def dedupeBySeen (seen : List String) : List ThreadItem → List ThreadItem
  | [] => []
  | x :: xs =>
    if x.id ∈ seen then dedupeBySeen seen xs
    else x :: dedupeBySeen (x.id :: seen) xs

def dedupeById (l : List ThreadItem) : List ThreadItem := dedupeBySeen [] l

/-- `fetchThreadTweets`: page, sort ascending by creation time (a stable sort,
missing timestamps treated as 0), then dedupe by id keeping first occurrence. -/
def fetchThreadTweets (maxTweets : Nat) (pages : List SearchPage) : List ThreadItem :=
  dedupeById (List.insertionSort threadLE (collectPages maxTweets pages []))

/-- `String(n).padStart(2, "0")`. -/
def padStart2 (s : String) : String :=
  if s.length < 2 then String.mk (List.replicate (2 - s.length) '0') ++ s else s

/-- The numbering map `(tw, idx) => "(" + num + "/" + total + ") " + tw.text`. -/
def numberItems (total : Nat) (idx : Nat) : List ThreadItem → List String
  | [] => []
  | tw :: rest =>
    ("(" ++ padStart2 (toString (idx + 1)) ++ "/" ++ toString total ++ ") " ++ tw.text)
      :: numberItems total (idx + 1) rest

/-- GET's thread-rendering step: numbered items joined with a blank line. -/
def renderThread (tweets : List ThreadItem) : String :=
  String.intercalate "\n\n" (numberItems tweets.length 0 tweets)

/-- The data GET's post-fetch combination logic works from: the expanded post
text, the `includeThread=1` flag, whether the post carries both a
conversation id and an author id, the result of `fetchThreadTweets`, and the
article-extraction result (`null` when not attempted or refused). -/
structure OrchInput where
  expandedText : String
  includeThread : Bool
  hasConversationAndAuthor : Bool
  threadTweets : List ThreadItem
  articleText : Option String

/-- The response fields `text`, `textKind` and the thread item count. -/
structure OrchResult where
  text : String
  textKind : String
  threadCount : Nat
deriving DecidableEq, Repr

/-- Truthiness of `articleText` (a non-null, non-empty string). -/
def articleUsed (inp : OrchInput) : Bool :=
  match inp.articleText with
  | some a => decide (0 < a.length)
  | none => false

/-- The combination logic of `GET` after the single-post fetch: thread text
replaces the expanded text when requested and non-empty; article text then
overrides both; `textKind` follows the article/thread/link/tweet cascade. -/
def orchestrate (inp : OrchInput) : OrchResult :=
  let finalText0 := inp.expandedText
  let step2 :=
    if inp.includeThread && inp.hasConversationAndAuthor then
      if 0 < inp.threadTweets.length then
        (renderThread inp.threadTweets, inp.threadTweets.length)
      else (finalText0, 0)
    else (finalText0, 0)
  let finalText2 :=
    match inp.articleText with
    | some a => if 0 < a.length then a else step2.1
    | none => step2.1
  let kind :=
    if articleUsed inp then "article"
    else if inp.includeThread && decide (0 < step2.2) then "thread"
    else if looksLikeMostlyLink inp.expandedText then "link"
    else "tweet"
  ⟨finalText2, kind, step2.2⟩

/-! ## HTML-to-text normalization (stripHtmlToText) -/

/-- `\w`: a word character, for the `\b` boundary in `<script\b`/`<style\b`. -/
def isWordChar (c : Char) : Bool := c.isAlpha || c.isDigit || c == '_'

/-- `\b` after the opening literal: the next character is not a word character
(or the string ends). -/
def boundaryOk (cs : List Char) : Bool :=
  match cs with
  | [] => true
  | c :: _ => !isWordChar c

/-- Index of the first case-insensitive occurrence of `lit`. -/
def findCiLit (lit : List Char) : List Char → Option Nat
  | [] => if lit.isEmpty then some 0 else none
  | c :: rest =>
    if (ciPrefixDrop lit (c :: rest)).isSome then some 0
    else (findCiLit lit rest).map (· + 1)

/-- Whether `lit` occurs case-insensitively anywhere in `cs`. -/
def hasCiLit (lit : List Char) (cs : List Char) : Bool := (findCiLit lit cs).isSome

/-- The `<script…</script>`, `<style…</style>` and `<!--…-->` removal regexes:
wherever the opening literal matches (with a word boundary when the regex has
`\b`) and the closing literal occurs later, the whole span through the close is
replaced by one space. Fuel-indexed structural recursion; each step consumes at
least one character, so `fuel = cs.length` always suffices. -/
def removeDelimBlocksFuel (openLit closeLit : List Char) (needB : Bool) :
    Nat → List Char → List Char
  | 0, _ => []
  | _ + 1, [] => []
  | fuel + 1, c :: rest =>
    if (ciPrefixDrop openLit (c :: rest)).isSome &&
        (!needB || boundaryOk ((c :: rest).drop openLit.length)) then
      match findCiLit closeLit ((c :: rest).drop openLit.length) with
      | some j =>
        ' ' :: removeDelimBlocksFuel openLit closeLit needB fuel
          ((c :: rest).drop (openLit.length + j + closeLit.length))
      | none => c :: removeDelimBlocksFuel openLit closeLit needB fuel rest
    else c :: removeDelimBlocksFuel openLit closeLit needB fuel rest

def removeDelimBlocks (openLit closeLit : List Char) (needB : Bool)
    (cs : List Char) : List Char :=
  removeDelimBlocksFuel openLit closeLit needB cs.length cs

def scriptOpen : List Char := ['<', 's', 'c', 'r', 'i', 'p', 't']

def scriptClose : List Char := ['<', '/', 's', 'c', 'r', 'i', 'p', 't', '>']

def styleOpen : List Char := ['<', 's', 't', 'y', 'l', 'e']

def styleClose : List Char := ['<', '/', 's', 't', 'y', 'l', 'e', '>']

def commentOpen : List Char := ['<', '!', '-', '-']

def commentClose : List Char := ['-', '-', '>']

/-- The closing block-level tags `</(p|div|br|li|h1|h2|h3|h4|h5|h6)>`. -/
def blockCloseTags : List (List Char) :=
  [['<', '/', 'p', '>'], ['<', '/', 'd', 'i', 'v', '>'], ['<', '/', 'b', 'r', '>'],
   ['<', '/', 'l', 'i', '>'], ['<', '/', 'h', '1', '>'], ['<', '/', 'h', '2', '>'],
   ['<', '/', 'h', '3', '>'], ['<', '/', 'h', '4', '>'], ['<', '/', 'h', '5', '>'],
   ['<', '/', 'h', '6', '>']]

/-- First alternative of the tag alternation matching at the front of `cs`,
returning its length. -/
def matchAnyCi : List (List Char) → List Char → Option Nat
  | [], _ => none
  | lit :: more, cs =>
    if (ciPrefixDrop lit cs).isSome then some lit.length else matchAnyCi more cs

/-- `</(p|div|br|li|h1..h6)>` → newline. -/
def replaceBlockClosesFuel : Nat → List Char → List Char
  | 0, _ => []
  | _ + 1, [] => []
  | fuel + 1, c :: rest =>
    match matchAnyCi blockCloseTags (c :: rest) with
    | some n => '\n' :: replaceBlockClosesFuel fuel ((c :: rest).drop n)
    | none => c :: replaceBlockClosesFuel fuel rest

def replaceBlockCloses (cs : List Char) : List Char :=
  replaceBlockClosesFuel cs.length cs

/-- `<[^>]+>` → space (at least one non-`>` between the brackets). -/
def stripTagsFuel : Nat → List Char → List Char
  | 0, _ => []
  | _ + 1, [] => []
  | fuel + 1, c :: rest =>
    if c = '<' then
      if 0 < (rest.takeWhile (fun x => x != '>')).length &&
          (rest.takeWhile (fun x => x != '>')).length < rest.length then
        ' ' :: stripTagsFuel fuel (rest.drop ((rest.takeWhile (fun x => x != '>')).length + 1))
      else c :: stripTagsFuel fuel rest
    else c :: stripTagsFuel fuel rest

def stripTags (cs : List Char) : List Char := stripTagsFuel cs.length cs

/-- Global case-insensitive replacement of the literal `lit` by `repl`
(the entity-decoding `.replace(/…/gi, …)` steps). -/
def replaceCiLitFuel (lit repl : List Char) : Nat → List Char → List Char
  | 0, _ => []
  | _ + 1, [] => []
  | fuel + 1, c :: rest =>
    if (ciPrefixDrop lit (c :: rest)).isSome then
      repl ++ replaceCiLitFuel lit repl fuel ((c :: rest).drop lit.length)
    else c :: replaceCiLitFuel lit repl fuel rest

def replaceCiLit (lit repl : List Char) (cs : List Char) : List Char :=
  replaceCiLitFuel lit repl cs.length cs

def nbspLit : List Char := ['&', 'n', 'b', 's', 'p', ';']

def ampLit : List Char := ['&', 'a', 'm', 'p', ';']

def quotLit : List Char := ['&', 'q', 'u', 'o', 't', ';']

def aposLit : List Char := ['&', '#', '3', '9', ';']

def ltLit : List Char := ['&', 'l', 't', ';']

def gtLit : List Char := ['&', 'g', 't', ';']

def isSpaceTab (c : Char) : Bool := c == ' ' || c == '\t'

/-- `[ \t]+\n` → `\n`: horizontal whitespace before a newline is dropped. -/
def collapseSpaceBeforeNewlineFuel : Nat → List Char → List Char
  | 0, _ => []
  | _ + 1, [] => []
  | fuel + 1, c :: rest =>
    if isSpaceTab c then
      match (c :: rest).drop ((c :: rest).takeWhile isSpaceTab).length with
      | '\n' :: after => '\n' :: collapseSpaceBeforeNewlineFuel fuel after
      | _ => c :: collapseSpaceBeforeNewlineFuel fuel rest
    else c :: collapseSpaceBeforeNewlineFuel fuel rest

def collapseSpaceBeforeNewline (cs : List Char) : List Char :=
  collapseSpaceBeforeNewlineFuel cs.length cs

/-- `\n{3,}` → `\n\n`. -/
def collapseNewlinesFuel : Nat → List Char → List Char
  | 0, _ => []
  | _ + 1, [] => []
  | fuel + 1, c :: rest =>
    if c == '\n' then
      if 3 ≤ ((c :: rest).takeWhile (fun x => x == '\n')).length then
        '\n' :: '\n' :: collapseNewlinesFuel fuel
          ((c :: rest).drop ((c :: rest).takeWhile (fun x => x == '\n')).length)
      else c :: collapseNewlinesFuel fuel rest
    else c :: collapseNewlinesFuel fuel rest

def collapseNewlines (cs : List Char) : List Char :=
  collapseNewlinesFuel cs.length cs

/-- `[ \t]{2,}` → single space. -/
def collapseSpacesFuel : Nat → List Char → List Char
  | 0, _ => []
  | _ + 1, [] => []
  | fuel + 1, c :: rest =>
    if isSpaceTab c then
      if 2 ≤ ((c :: rest).takeWhile isSpaceTab).length then
        ' ' :: collapseSpacesFuel fuel ((c :: rest).drop ((c :: rest).takeWhile isSpaceTab).length)
      else c :: collapseSpacesFuel fuel rest
    else c :: collapseSpacesFuel fuel rest

def collapseSpaces (cs : List Char) : List Char := collapseSpacesFuel cs.length cs

/-- `stripHtmlToText`: the full normalization chain of the source — script,
style and comment blocks out; block-closing tags to newlines; remaining tags to
spaces; six entities decoded; whitespace collapsed; trimmed. -/
def stripHtmlToText (html : String) : String :=
  let out1 := removeDelimBlocks scriptOpen scriptClose true html.data
  let out2 := removeDelimBlocks styleOpen styleClose true out1
  let out3 := removeDelimBlocks commentOpen commentClose false out2
  let out4 := replaceBlockCloses out3
  let out5 := stripTags out4
  let out6 := replaceCiLit nbspLit [' '] out5
  let out7 := replaceCiLit ampLit ['&'] out6
  let out8 := replaceCiLit quotLit [Char.ofNat 34] out7
  let out9 := replaceCiLit aposLit [Char.ofNat 39] out8
  let out10 := replaceCiLit ltLit ['<'] out9
  let out11 := replaceCiLit gtLit ['>'] out10
  let out12 := collapseSpaceBeforeNewline out11
  let out13 := collapseNewlines out12
  let out14 := collapseSpaces out13
  String.mk (jsTrimList out14)

/-- The pure whitespace-collapsing-and-trimming part of the normalization:
the last four steps of `stripHtmlToText` applied directly to the input. -/
def whitespaceNormalize (s : String) : String :=
  String.mk (jsTrimList (collapseSpaces (collapseNewlines (collapseSpaceBeforeNewline s.data))))

/-! ## Theorems: rate limiter claims -/

/-- C7: with no existing bucket, `enforceLimits` accepts unconditionally (for
every character count, even one above the daily character ceiling) and creates
a bucket with minuteCount 1, dayCount 1 and dayChars N under the current keys. -/
theorem enforceLimits_new_bucket (cfg : LimitConfig) (now : NowKeys) (n : Nat) :
    enforceLimits cfg now none n =
      (none, { minuteKey := now.minuteKey, minuteCount := 1,
               dayKey := now.dayKey, dayCount := 1, dayChars := n }) := rfl

/-- C5 (amended): on rejection no counter is incremented — the stored bucket is
exactly the bucket after the minute/day rollover resets (so, when the bucket's
keys already match the current minute and day, it is exactly the old bucket) —
and the rejection message is determined by the first violated ceiling in the
order per-minute count, per-day count, per-day characters. -/
theorem enforceLimits_reject_checks (cfg : LimitConfig) (now : NowKeys)
    (b : Bucket) (n : Nat)
    (hreject : (enforceLimits cfg now (some b) n).1.isSome = true) :
    (enforceLimits cfg now (some b) n).2 = applyRollovers now b ∧
    (b.minuteKey = now.minuteKey → b.dayKey = now.dayKey →
      (enforceLimits cfg now (some b) n).2 = b) ∧
    (enforceLimits cfg now (some b) n).1 = firstViolation cfg (applyRollovers now b) n := by
  have hro : b.minuteKey = now.minuteKey → b.dayKey = now.dayKey →
      applyRollovers now b = b := by
    intro h1 h2
    simp [applyRollovers, h1, h2]
  simp only [enforceLimits, firstViolation] at hreject ⊢
  split_ifs with h1 h2 h3
  · exact ⟨rfl, fun ha hb => hro ha hb, rfl⟩
  · exact ⟨rfl, fun ha hb => hro ha hb, rfl⟩
  · exact ⟨rfl, fun ha hb => hro ha hb, rfl⟩
  · simp only [h1, h2, h3, if_false] at hreject
    simp at hreject

/-- Witness for `enforceLimits_reject_checks` at a concrete rejected request. -/
theorem enforceLimits_reject_checks_witness :
    (enforceLimits ⟨2, 200, 200000⟩ ⟨"2026-10-11", "2026-10-11:10:00"⟩
        (some ⟨"2026-10-11:10:00", 2, "2026-10-11", 5, 50⟩) 10).2 =
      applyRollovers ⟨"2026-10-11", "2026-10-11:10:00"⟩
        ⟨"2026-10-11:10:00", 2, "2026-10-11", 5, 50⟩ ∧
    ("2026-10-11:10:00" = "2026-10-11:10:00" → "2026-10-11" = "2026-10-11" →
      (enforceLimits ⟨2, 200, 200000⟩ ⟨"2026-10-11", "2026-10-11:10:00"⟩
        (some ⟨"2026-10-11:10:00", 2, "2026-10-11", 5, 50⟩) 10).2 =
        ⟨"2026-10-11:10:00", 2, "2026-10-11", 5, 50⟩) ∧
    (enforceLimits ⟨2, 200, 200000⟩ ⟨"2026-10-11", "2026-10-11:10:00"⟩
        (some ⟨"2026-10-11:10:00", 2, "2026-10-11", 5, 50⟩) 10).1 =
      firstViolation ⟨2, 200, 200000⟩
        (applyRollovers ⟨"2026-10-11", "2026-10-11:10:00"⟩
          ⟨"2026-10-11:10:00", 2, "2026-10-11", 5, 50⟩) 10 :=
  enforceLimits_reject_checks ⟨2, 200, 200000⟩ ⟨"2026-10-11", "2026-10-11:10:00"⟩
    ⟨"2026-10-11:10:00", 2, "2026-10-11", 5, 50⟩ 10 (by decide)

/-- C5 counterexample: with the default ceilings, a bucket whose stored minute
key is stale and whose day count is at the daily ceiling is rejected (day-limit
message), yet its `minuteCount` is changed (reset from 3 to 0) — so on this
input the claim that a rejected request leaves `minuteCount` unchanged fails. -/
theorem enforceLimits_reject_mutates_counterexample :
    (enforceLimits ⟨10, 200, 200000⟩ ⟨"2026-10-11", "2026-10-11:10:00"⟩
        (some ⟨"2026-10-11:09:59", 3, "2026-10-11", 200, 0⟩) 10).1 =
      some (dayLimitMsg ⟨10, 200, 200000⟩) ∧
    (enforceLimits ⟨10, 200, 200000⟩ ⟨"2026-10-11", "2026-10-11:10:00"⟩
        (some ⟨"2026-10-11:09:59", 3, "2026-10-11", 200, 0⟩) 10).2.minuteCount = 0 ∧
    (0 : Nat) ≠ 3 := by decide

/-- C6: with RPM = 2 (day ceilings at their defaults), three consecutive checks
in the same UTC minute for the same identity: the 1st and 2nd are accepted, the
3rd is rejected with the minute-limit message; a 4th check one UTC minute later
on the same day is accepted again — the minute counter is reset to 1 while the
day count carries on to 3. -/
theorem rateLimiter_rpm2_scenario :
    (enforceLimits ⟨2, 200, 200000⟩ ⟨"2026-10-11", "2026-10-11:10:00"⟩ none 10).1 = none ∧
    (enforceLimits ⟨2, 200, 200000⟩ ⟨"2026-10-11", "2026-10-11:10:00"⟩
      (some (enforceLimits ⟨2, 200, 200000⟩ ⟨"2026-10-11", "2026-10-11:10:00"⟩
        none 10).2) 10).1 = none ∧
    (enforceLimits ⟨2, 200, 200000⟩ ⟨"2026-10-11", "2026-10-11:10:00"⟩
      (some (enforceLimits ⟨2, 200, 200000⟩ ⟨"2026-10-11", "2026-10-11:10:00"⟩
        (some (enforceLimits ⟨2, 200, 200000⟩ ⟨"2026-10-11", "2026-10-11:10:00"⟩
          none 10).2) 10).2) 10).1 =
      some (minuteLimitMsg ⟨2, 200, 200000⟩) ∧
    (enforceLimits ⟨2, 200, 200000⟩ ⟨"2026-10-11", "2026-10-11:10:01"⟩
      (some (enforceLimits ⟨2, 200, 200000⟩ ⟨"2026-10-11", "2026-10-11:10:00"⟩
        (some (enforceLimits ⟨2, 200, 200000⟩ ⟨"2026-10-11", "2026-10-11:10:00"⟩
          (some (enforceLimits ⟨2, 200, 200000⟩ ⟨"2026-10-11", "2026-10-11:10:00"⟩
            none 10).2) 10).2) 10).2) 10).1 = none ∧
    (enforceLimits ⟨2, 200, 200000⟩ ⟨"2026-10-11", "2026-10-11:10:01"⟩
      (some (enforceLimits ⟨2, 200, 200000⟩ ⟨"2026-10-11", "2026-10-11:10:00"⟩
        (some (enforceLimits ⟨2, 200, 200000⟩ ⟨"2026-10-11", "2026-10-11:10:00"⟩
          (some (enforceLimits ⟨2, 200, 200000⟩ ⟨"2026-10-11", "2026-10-11:10:00"⟩
            none 10).2) 10).2) 10).2) 10).2.minuteCount = 1 ∧
    (enforceLimits ⟨2, 200, 200000⟩ ⟨"2026-10-11", "2026-10-11:10:01"⟩
      (some (enforceLimits ⟨2, 200, 200000⟩ ⟨"2026-10-11", "2026-10-11:10:00"⟩
        (some (enforceLimits ⟨2, 200, 200000⟩ ⟨"2026-10-11", "2026-10-11:10:00"⟩
          (some (enforceLimits ⟨2, 200, 200000⟩ ⟨"2026-10-11", "2026-10-11:10:00"⟩
            none 10).2) 10).2) 10).2) 10).2.dayCount = 3 := by decide

/-! ## Theorems: locator parser -/

theorem matchStatusAt_nil : matchStatusAt [] = none := by decide

theorem matchIWebAt_imp_matchStatusAt {cs : List Char} {ds : List Char}
    (h : matchIWebAt cs = some ds) : matchStatusAt (cs.drop 6) = some ds := by
  unfold matchIWebAt at h
  by_cases hT : cs.take 14 = iWebLit
  · have hcs : cs.drop 6 = statusLit ++ cs.drop 14 := by
      conv_lhs => rw [← List.take_append_drop 14 cs]
      rw [hT]
      rw [List.drop_append_of_le_length (by decide)]
      rfl
    rw [hcs]
    unfold matchStatusAt
    rw [List.take_left' (by decide), List.drop_left' (by decide), if_pos rfl]
    rw [if_pos hT] at h
    have hds : ((cs.drop 14).takeWhile isDigitChar).take 30 = ds ∧
        5 ≤ (((cs.drop 14).takeWhile isDigitChar).take 30).length := by
      by_cases h5 : 5 ≤ (((cs.drop 14).takeWhile isDigitChar).take 30).length
      · rw [if_pos h5] at h
        exact ⟨Option.some.inj h, h5⟩
      · rw [if_neg h5] at h
        exact absurd h (by simp)
    rw [if_pos (hds.1 ▸ hds.2), hds.1]
  · rw [if_neg hT] at h
    exact absurd h (by simp)

theorem findStatusMatch_none_drop {cs : List Char}
    (h : findStatusMatch cs = none) : ∀ j, matchStatusAt (cs.drop j) = none := by
  induction cs with
  | nil => intro j; rw [List.drop_nil]; exact matchStatusAt_nil
  | cons c rest ih =>
    have hsplit : matchStatusAt (c :: rest) = none ∧ findStatusMatch rest = none := by
      unfold findStatusMatch at h
      cases hm : matchStatusAt (c :: rest) with
      | some ds => rw [hm] at h; exact absurd h (by simp)
      | none => rw [hm] at h; exact ⟨rfl, h⟩
    intro j
    match j with
    | 0 => exact hsplit.1
    | j + 1 => rw [List.drop_succ_cons]; exact ih hsplit.2 j

theorem findStatusMatch_none_imp_findIWebMatch_none {cs : List Char}
    (h : findStatusMatch cs = none) : findIWebMatch cs = none := by
  induction cs with
  | nil => rfl
  | cons c rest ih =>
    have hsplit : matchStatusAt (c :: rest) = none ∧ findStatusMatch rest = none := by
      unfold findStatusMatch at h
      cases hm : matchStatusAt (c :: rest) with
      | some ds => rw [hm] at h; exact absurd h (by simp)
      | none => rw [hm] at h; exact ⟨rfl, h⟩
    unfold findIWebMatch
    cases hw : matchIWebAt (c :: rest) with
    | some ds =>
      have := matchIWebAt_imp_matchStatusAt hw
      rw [findStatusMatch_none_drop h 6] at this
      exact absurd this (by simp)
    | none => exact ih hsplit.2

/-- C8: `extractTweetId` is a total function characterized as: if the trimmed
input is purely 5–30 decimal digits it returns the trimmed input; otherwise it
returns the digits of the first `/status/<5-30 digits>` match (which subsumes
the `/i/web/status/` variant); otherwise `none`. -/
theorem extractTweetId_characterization (input : String) :
    extractTweetId input =
      (if isPureTweetId (jsTrim input) then some (jsTrim input)
       else (findStatusMatch (jsTrim input).data).map String.mk) := by
  unfold extractTweetId
  by_cases hp : isPureTweetId (jsTrim input)
  · rw [if_pos hp, if_pos hp]
  · rw [if_neg hp, if_neg hp]
    cases hm : findStatusMatch (jsTrim input).data with
    | some ds => simp
    | none =>
      rw [findStatusMatch_none_imp_findIWebMatch_none hm]
      simp

/-! ## Theorems: classifier, host check, redirect resolution -/

theorem ciPrefixDrop_append {pat xs r : List Char} (ys : List Char)
    (h : ciPrefixDrop pat xs = some r) :
    ciPrefixDrop pat (xs ++ ys) = some (r ++ ys) := by
  induction pat generalizing xs with
  | nil =>
    simp only [ciPrefixDrop, Option.some.injEq] at h
    subst h
    rfl
  | cons p ps ih =>
    cases xs with
    | nil => exact absurd h (by simp [ciPrefixDrop])
    | cons c xs2 =>
      simp only [ciPrefixDrop, List.cons_append] at h ⊢
      by_cases hc : c.toLower = p
      · rw [if_pos hc] at h ⊢
        exact ih h
      · rw [if_neg hc] at h
        exact absurd h (by simp)

theorem length_takeWhile_append_ne {p : Char → Bool} {xs : List Char}
    (h : (xs.takeWhile p).length ≠ 0) (ys : List Char) :
    ((xs ++ ys).takeWhile p).length ≠ 0 := by
  cases xs with
  | nil => simp at h
  | cons a xs2 =>
    by_cases hp : p a
    · simp [List.takeWhile_cons, hp]
    · simp [List.takeWhile_cons, hp] at h

theorem matchHttpLen_append {xs : List Char} {n : Nat} (ys : List Char)
    (h : matchHttpLen xs = some n) : ∃ m, matchHttpLen (xs ++ ys) = some m := by
  unfold matchHttpLen at h ⊢
  cases h1 : ciPrefixDrop httpPat xs with
  | none => simp only [h1] at h; exact absurd h (by simp)
  | some r =>
    simp only [h1] at h
    simp only [ciPrefixDrop_append ys h1]
    cases h2 : ciPrefixDrop sSlashPat r with
    | some r2 =>
      simp only [h2] at h
      simp only [ciPrefixDrop_append ys h2]
      by_cases h0 : (r2.takeWhile isUrlBodyChar).length = 0
      · simp [h0] at h
      · have h0y := length_takeWhile_append_ne h0 ys
        refine ⟨8 + ((r2 ++ ys).takeWhile isUrlBodyChar).length, ?_⟩
        simp [h0y]
    | none =>
      simp only [h2] at h
      cases h3 : ciPrefixDrop slashPat r with
      | none => simp only [h3] at h; exact absurd h (by simp)
      | some r2 =>
        simp only [h3] at h
        have hr : ∃ c r2m, r = c :: r2m ∧ c.toLower = ':' := by
          cases r with
          | nil => exact absurd h3 (by simp [ciPrefixDrop, slashPat])
          | cons c r2m =>
            refine ⟨c, r2m, rfl, ?_⟩
            by_cases hc : c.toLower = ':'
            · exact hc
            · exact absurd h3 (by simp [ciPrefixDrop, slashPat, hc])
        obtain ⟨c, r2m, rfl, hc⟩ := hr
        have hry : (c :: r2m) ++ ys = c :: (r2m ++ ys) := rfl
        rw [hry]
        have hs : ciPrefixDrop sSlashPat (c :: (r2m ++ ys)) = none := by
          simp [ciPrefixDrop, sSlashPat, hc]
        simp only [hs]
        have h3y := ciPrefixDrop_append ys h3
        rw [hry] at h3y
        simp only [h3y]
        by_cases h0 : (r2.takeWhile isUrlBodyChar).length = 0
        · simp [h0] at h
        · have h0y := length_takeWhile_append_ne h0 ys
          refine ⟨7 + ((r2 ++ ys).takeWhile isUrlBodyChar).length, ?_⟩
          simp [h0y]

theorem findHttp_append {xs : List Char} (ys : List Char)
    (h : (findHttp xs).isSome = true) : (findHttp (xs ++ ys)).isSome = true := by
  induction xs with
  | nil => simp [findHttp] at h
  | cons c rest ih =>
    rw [List.cons_append]
    cases h1 : matchHttpLen (c :: rest) with
    | some n =>
      obtain ⟨m, hm⟩ := matchHttpLen_append ys h1
      rw [List.cons_append] at hm
      simp [findHttp, hm]
    | none =>
      unfold findHttp at h
      rw [h1] at h
      have hres := ih h
      cases h2 : matchHttpLen (c :: (rest ++ ys)) with
      | some n => simp [findHttp, h2]
      | none => simpa [findHttp, h2] using hres

theorem findHttp_prepend (pre : List Char) {zs : List Char}
    (h : (findHttp zs).isSome = true) : (findHttp (pre ++ zs)).isSome = true := by
  induction pre with
  | nil => simpa using h
  | cons p pre2 ih =>
    rw [List.cons_append]
    cases h2 : matchHttpLen (p :: (pre2 ++ zs)) with
    | some n => simp [findHttp, h2]
    | none => simpa [findHttp, h2] using ih

theorem httpScanFuel_count_pos {fuel : Nat} {cs : List Char}
    (h : (httpScanFuel fuel cs).1 ≠ 0) : (findHttp cs).isSome = true := by
  induction fuel generalizing cs with
  | zero => simp [httpScanFuel] at h
  | succ fuel ih =>
    cases cs with
    | nil => simp [httpScanFuel] at h
    | cons c rest =>
      cases h1 : matchHttpLen (c :: rest) with
      | some n => simp [findHttp, h1]
      | none =>
        simp only [httpScanFuel, h1] at h
        have hres := ih h
        simpa [findHttp, h1] using hres

theorem reverse_dropWhile_takeWhile_split (d : List Char) (p : Char → Bool) :
    d = (d.reverse.dropWhile p).reverse ++ (d.reverse.takeWhile p).reverse := by
  conv_lhs => rw [← List.reverse_reverse d]
  generalize d.reverse = e
  rw [← List.reverse_append, List.takeWhile_append_dropWhile]

theorem jsTrimList_split (cs : List Char) :
    ∃ pre suf, cs = pre ++ jsTrimList cs ++ suf := by
  refine ⟨cs.takeWhile isJsWhitespaceChar,
    ((cs.dropWhile isJsWhitespaceChar).reverse.takeWhile isJsWhitespaceChar).reverse, ?_⟩
  conv_lhs =>
    rw [← List.takeWhile_append_dropWhile isJsWhitespaceChar cs]
    rw [reverse_dropWhile_takeWhile_split (cs.dropWhile isJsWhitespaceChar) isJsWhitespaceChar]
  rw [List.append_assoc]
  rfl

/-- C10: whenever `looksLikeMostlyLink` classifies a text as mostly-a-link,
`getFirstHttpUrl` finds a URL in it, so the orchestration branch guarded by a
non-null first URL is entered. -/
theorem mostlyLink_implies_firstUrl (s : String)
    (h : looksLikeMostlyLink s = true) : (getFirstHttpUrl s).isSome = true := by
  unfold looksLikeMostlyLink at h
  by_cases hA : (jsTrimList s.data).isEmpty = true
  · rw [if_pos hA] at h
    exact absurd h (by simp)
  · rw [if_neg hA] at h
    by_cases hB : ((httpScan (jsTrimList s.data)).1 == 0) = true
    · rw [if_pos hB] at h
      exact absurd h (by simp)
    · rw [if_neg hB] at h
      have hcount : (httpScanFuel (jsTrimList s.data).length (jsTrimList s.data)).1 ≠ 0 := by
        simpa [httpScan] using hB
      have hfind := httpScanFuel_count_pos hcount
      obtain ⟨pre, suf, hsplit⟩ := jsTrimList_split s.data
      have h2 := findHttp_prepend pre (findHttp_append suf hfind)
      unfold getFirstHttpUrl
      rw [hsplit, List.append_assoc]
      obtain ⟨v, hv⟩ := Option.isSome_iff_exists.mp h2
      rw [hv]
      rfl

/-- Witness for `mostlyLink_implies_firstUrl` at a concrete mostly-link text. -/
theorem mostlyLink_implies_firstUrl_witness :
    looksLikeMostlyLink "https://a.com/x" = true ∧
    (getFirstHttpUrl "https://a.com/x").isSome = true :=
  ⟨by decide, mostlyLink_implies_firstUrl "https://a.com/x" (by decide)⟩

/-- C2 (code bug): because the host check uses a plain suffix test
(`host.endsWith("x.com")`), the host `netflix.com` — which is neither the
platform domain `x.com`/`twitter.com` nor a subdomain of it — is refused,
contradicting the claimed "exact domain or subdomain" behavior. -/
theorem hostCheck_refuses_nonPlatform_domain_bug :
    hostRefusesArticle "netflix.com" = true ∧
    specHostRefuses "netflix.com" = false ∧
    hostRefusesArticle "x.com" = true ∧
    hostRefusesArticle "www.sub.twitter.com" = true := by decide

/-- C1 (code bug): `resolveRedirect` has no `catch`, so when the underlying
fetch rejects (network failure or the 9-second abort) the exception propagates
instead of the original URL being returned, and the orchestration's
redirect-resolution step therefore propagates the error to `GET`'s top-level
catch (failing the whole request with a 500) rather than degrading to the
original URL. -/
theorem resolveRedirect_failure_propagates_bug :
    resolveRedirect (FetchResult.failure "This operation was aborted") "https://t.co/abc" =
      Except.error "This operation was aborted" ∧
    resolveRedirect (FetchResult.failure "This operation was aborted") "https://t.co/abc" ≠
      Except.ok "https://t.co/abc" ∧
    resolveStepInGET "https://t.co/abc" (FetchResult.failure "This operation was aborted") =
      Except.error "This operation was aborted" :=
  ⟨rfl, fun hcontra => Except.noConfusion hcontra, rfl⟩

/-! ## Theorems: thread assembly and orchestration -/

theorem dedupeBySeen_sublist (seen : List String) (l : List ThreadItem) :
    (dedupeBySeen seen l).Sublist l := by
  induction l generalizing seen with
  | nil => exact List.Sublist.refl []
  | cons x xs ih =>
    by_cases hm : x.id ∈ seen
    · simp only [dedupeBySeen, if_pos hm]
      exact (ih seen).cons x
    · simp only [dedupeBySeen, if_neg hm]
      exact (ih (x.id :: seen)).cons₂ x

theorem dedupeBySeen_ids (seen : List String) (l : List ThreadItem) :
    ((dedupeBySeen seen l).map ThreadItem.id).Nodup ∧
    ∀ i ∈ (dedupeBySeen seen l).map ThreadItem.id, i ∉ seen := by
  induction l generalizing seen with
  | nil => exact ⟨List.nodup_nil, by simp [dedupeBySeen]⟩
  | cons x xs ih =>
    by_cases hm : x.id ∈ seen
    · simpa only [dedupeBySeen, if_pos hm] using ih seen
    · simp only [dedupeBySeen, if_neg hm, List.map_cons, List.nodup_cons]
      obtain ⟨hnd, hns⟩ := ih (x.id :: seen)
      refine ⟨⟨fun hmem => ?_, hnd⟩, ?_⟩
      · exact (hns _ hmem) (List.mem_cons_self _ _)
      · intro i hi
        rcases List.mem_cons.mp hi with h1 | h2
        · rw [h1]; exact hm
        · intro hcontra
          exact (hns i h2) (List.mem_cons_of_mem _ hcontra)

theorem dedupeBySeen_mem_iff (seen : List String) (l : List ThreadItem) (i : String) :
    i ∈ (dedupeBySeen seen l).map ThreadItem.id ↔
      (i ∈ l.map ThreadItem.id ∧ i ∉ seen) := by
  induction l generalizing seen with
  | nil => simp [dedupeBySeen]
  | cons x xs ih =>
    by_cases hm : x.id ∈ seen
    · simp only [dedupeBySeen, if_pos hm, List.map_cons, List.mem_cons]
      rw [ih seen]
      constructor
      · exact fun ⟨h1, h2⟩ => ⟨Or.inr h1, h2⟩
      · rintro ⟨h1 | h1, h2⟩
        · exact absurd (h1 ▸ hm) h2
        · exact ⟨h1, h2⟩
    · simp only [dedupeBySeen, if_neg hm, List.map_cons, List.mem_cons]
      rw [ih (x.id :: seen)]
      constructor
      · rintro (h1 | ⟨h1, h2⟩)
        · exact ⟨Or.inl h1, h1 ▸ hm⟩
        · exact ⟨Or.inr h1, fun hc => h2 (List.mem_cons_of_mem _ hc)⟩
      · rintro ⟨h1 | h1, h2⟩
        · exact Or.inl h1
        · by_cases hx : i = x.id
          · exact Or.inl hx
          · exact Or.inr ⟨h1, by simp [List.mem_cons, hx, h2]⟩

theorem dedupeBySeen_keeps_first (seen : List String) (l : List ThreadItem) :
    ∀ x ∈ dedupeBySeen seen l,
      x.id ∉ seen ∧ l.find? (fun y => y.id == x.id) = some x := by
  induction l generalizing seen with
  | nil => simp [dedupeBySeen]
  | cons y ys ih =>
    by_cases hm : y.id ∈ seen
    · simp only [dedupeBySeen, if_pos hm]
      intro x hx
      obtain ⟨hid, hfind⟩ := ih seen x hx
      have hne : (y.id == x.id) = false := by
        simp only [beq_eq_false_iff_ne, ne_eq]
        intro hcontra
        exact hid (hcontra ▸ hm)
      refine ⟨hid, ?_⟩
      rw [List.find?_cons_of_neg _ (by simp [hne])]
      exact hfind
    · simp only [dedupeBySeen, if_neg hm]
      intro x hx
      rcases List.mem_cons.mp hx with hx1 | hx2
      · subst hx1
        exact ⟨hm, by rw [List.find?_cons_of_pos _ (by simp)]⟩
      · obtain ⟨hid, hfind⟩ := ih (y.id :: seen) x hx2
        have hney : x.id ≠ y.id := fun hc => hid (by simp [hc])
        refine ⟨fun hc => hid (List.mem_cons_of_mem _ hc), ?_⟩
        rw [List.find?_cons_of_neg _ (by simp; exact fun hc => hney hc.symm)]
        exact hfind

theorem numberItems_eq_range (l : List ThreadItem) (total : Nat) (idx : Nat) :
    numberItems total idx l =
      (List.range l.length).map (fun k =>
        "(" ++ padStart2 (toString (idx + k + 1)) ++ "/" ++ toString total ++ ") " ++
          (l.getD k ⟨"", "", none⟩).text) := by
  induction l generalizing idx with
  | nil => simp [numberItems]
  | cons x xs ih =>
    simp only [numberItems, List.length_cons, List.range_succ_eq_map, List.map_cons,
      List.map_map]
    congr 1
    rw [ih (idx + 1)]
    apply List.map_congr_left
    intro k _
    simp only [Function.comp_apply]
    have harith : idx + Nat.succ k + 1 = idx + 1 + k + 1 := by omega
    rw [harith]
    rfl

/-- C4: for every sequence of fetched pages and cap, the assembled thread is
sorted ascending by creation time (missing timestamps treated as 0), its ids
are duplicate-free and exactly the ids of the collected items, each kept item
is the first occurrence of its id after sorting, and the rendered output is
the items numbered `(NN/total) text` — NN the zero-padded 1-based index, total
the deduplicated count — joined by blank lines. -/
theorem thread_assembly_sorted_dedup_numbered (maxT : Nat) (pages : List SearchPage) :
    List.Pairwise threadLE (fetchThreadTweets maxT pages) ∧
    ((fetchThreadTweets maxT pages).map ThreadItem.id).Nodup ∧
    (∀ i : String, i ∈ (fetchThreadTweets maxT pages).map ThreadItem.id ↔
      i ∈ (collectPages maxT pages []).map ThreadItem.id) ∧
    (∀ x ∈ fetchThreadTweets maxT pages,
      (List.insertionSort threadLE (collectPages maxT pages [])).find?
        (fun y => y.id == x.id) = some x) ∧
    renderThread (fetchThreadTweets maxT pages) =
      String.intercalate "\n\n"
        ((List.range (fetchThreadTweets maxT pages).length).map fun k =>
          "(" ++ padStart2 (toString (k + 1)) ++ "/" ++
            toString (fetchThreadTweets maxT pages).length ++ ") " ++
            ((fetchThreadTweets maxT pages).getD k ⟨"", "", none⟩).text) := by
  have hdef : fetchThreadTweets maxT pages =
      dedupeBySeen [] (List.insertionSort threadLE (collectPages maxT pages [])) := rfl
  have hperm := (List.perm_insertionSort threadLE (collectPages maxT pages [])).map
    ThreadItem.id
  refine ⟨?_, ?_, ?_, ?_, ?_⟩
  · rw [hdef]
    exact List.Pairwise.sublist (dedupeBySeen_sublist _ _)
      (List.sorted_insertionSort threadLE (collectPages maxT pages []))
  · rw [hdef]
    exact (dedupeBySeen_ids _ _).1
  · intro i
    rw [hdef, dedupeBySeen_mem_iff]
    constructor
    · rintro ⟨h1, _⟩
      exact hperm.mem_iff.mp h1
    · intro h1
      exact ⟨hperm.mem_iff.mpr h1, by simp⟩
  · intro x hx
    exact ((dedupeBySeen_keeps_first _ _) x (hdef ▸ hx)).2
  · unfold renderThread
    rw [numberItems_eq_range]
    congr 1
    apply List.map_congr_left
    intro k _
    have h0 : 0 + k + 1 = k + 1 := by omega
    rw [h0]

/-- Witness for `thread_assembly_sorted_dedup_numbered` at a concrete page. -/
theorem thread_assembly_witness :
    (List.insertionSort threadLE (collectPages 40
        [⟨[⟨"1", "a", some 5⟩], none⟩] [])).find?
      (fun y => y.id == (⟨"1", "a", some 5⟩ : ThreadItem).id) =
      some ⟨"1", "a", some 5⟩ :=
  (thread_assembly_sorted_dedup_numbered 40 [⟨[⟨"1", "a", some 5⟩], none⟩]).2.2.2.1
    ⟨"1", "a", some 5⟩ (by decide)

/-- C3: when article extraction produced non-empty text it replaces the thread
or original text, and `textKind` is decided in priority order: `article` when
article text was used; else `thread` when thread inclusion was requested and
thread assembly yielded at least one item; else `link` when the expanded text
is classified mostly-a-link; else `tweet`. -/
theorem orchestration_article_priority (inp : OrchInput) :
    (articleUsed inp = true → (orchestrate inp).text = inp.articleText.getD "") ∧
    (orchestrate inp).textKind =
      (if articleUsed inp then "article"
       else if inp.includeThread && (inp.hasConversationAndAuthor &&
           decide (0 < inp.threadTweets.length)) then "thread"
       else if looksLikeMostlyLink inp.expandedText then "link"
       else "tweet") := by
  obtain ⟨ex, inc, conv, tts, art⟩ := inp
  constructor
  · intro ha
    cases art with
    | none => simp [articleUsed] at ha
    | some a =>
      have hlen : 0 < a.length := of_decide_eq_true (by simpa [articleUsed] using ha)
      simp [orchestrate, hlen]
  · cases art with
    | none =>
      by_cases hinc : inc <;> by_cases hconv : conv <;>
        by_cases hlen : 0 < tts.length <;>
        simp [orchestrate, articleUsed, hinc, hconv, hlen]
    | some a =>
      by_cases hae : 0 < a.length <;> by_cases hinc : inc <;> by_cases hconv : conv <;>
        by_cases hlen : 0 < tts.length <;>
        simp [orchestrate, articleUsed, hae, hinc, hconv, hlen]

/-! ## Theorems: HTML-to-text normalization -/

theorem toLower_eq_of_nonletter {c d : Char} (hd : d.toNat < 97)
    (h : c.toLower = d) : c = d := by
  unfold Char.toLower at h
  by_cases hc : c.toNat ≥ 65 ∧ c.toNat ≤ 90
  · rw [if_pos hc] at h
    have hnat := congrArg Char.toNat h
    have hv : Nat.isValidChar (c.toNat + 32) := Or.inl (by omega)
    rw [Char.ofNat, dif_pos hv] at hnat
    simp only [Char.ofNatAux, Char.toNat, UInt32.toNat] at hnat
    rw [BitVec.toNat_ofNatLt] at hnat
    simp only [Char.toNat, UInt32.toNat] at hd hc
    omega
  · rwa [if_neg hc] at h

theorem removeDelimBlocksFuel_no_lt {t closeLit : List Char} {needB : Bool} :
    ∀ (fuel : Nat) (cs : List Char), cs.length ≤ fuel → '<' ∉ cs →
      removeDelimBlocksFuel ('<' :: t) closeLit needB fuel cs = cs := by
  intro fuel
  induction fuel with
  | zero =>
    intro cs hl _
    rw [List.eq_nil_of_length_eq_zero (Nat.le_zero.mp hl)]
    rfl
  | succ fuel ih =>
    intro cs hl hmem
    cases cs with
    | nil => rfl
    | cons c rest =>
      have hc : c ≠ '<' := fun hcc => hmem (hcc ▸ List.mem_cons_self c rest)
      have hcl : ¬(c.toLower = '<') := fun hcc => hc (toLower_eq_of_nonletter (by decide) hcc)
      have hciso : (ciPrefixDrop ('<' :: t) (c :: rest)).isSome = false := by
        simp [ciPrefixDrop, hcl]
      have hrest : rest.length ≤ fuel := by
        simp only [List.length_cons] at hl
        omega
      simp only [removeDelimBlocksFuel, hciso, Bool.false_and, Bool.false_eq_true, if_false]
      rw [ih rest hrest (fun hm => hmem (List.mem_cons_of_mem _ hm))]

theorem matchAnyCi_none_of_no_lt {c : Char} (hcl : ¬(c.toLower = '<')) (rest : List Char) :
    ∀ lits : List (List Char), (∀ l ∈ lits, l.head? = some '<') →
      matchAnyCi lits (c :: rest) = none := by
  intro lits
  induction lits with
  | nil => intro _; rfl
  | cons l more ih =>
    intro hl
    have hh := hl l (List.mem_cons_self _ _)
    cases l with
    | nil => simp at hh
    | cons x xs =>
      have hx : x = '<' := by simpa using hh
      subst hx
      have hciso : (ciPrefixDrop ('<' :: xs) (c :: rest)).isSome = false := by
        simp [ciPrefixDrop, hcl]
      simp only [matchAnyCi, hciso, Bool.false_eq_true, if_false]
      exact ih (fun l2 h2 => hl l2 (List.mem_cons_of_mem _ h2))

theorem replaceBlockClosesFuel_no_lt :
    ∀ (fuel : Nat) (cs : List Char), cs.length ≤ fuel → '<' ∉ cs →
      replaceBlockClosesFuel fuel cs = cs := by
  intro fuel
  induction fuel with
  | zero =>
    intro cs hl _
    rw [List.eq_nil_of_length_eq_zero (Nat.le_zero.mp hl)]
    rfl
  | succ fuel ih =>
    intro cs hl hmem
    cases cs with
    | nil => rfl
    | cons c rest =>
      have hc : c ≠ '<' := fun hcc => hmem (hcc ▸ List.mem_cons_self c rest)
      have hcl : ¬(c.toLower = '<') := fun hcc => hc (toLower_eq_of_nonletter (by decide) hcc)
      have hm := matchAnyCi_none_of_no_lt hcl rest blockCloseTags (by decide)
      have hrest : rest.length ≤ fuel := by
        simp only [List.length_cons] at hl
        omega
      simp only [replaceBlockClosesFuel, hm]
      rw [ih rest hrest (fun hmm => hmem (List.mem_cons_of_mem _ hmm))]

theorem stripTagsFuel_no_lt :
    ∀ (fuel : Nat) (cs : List Char), cs.length ≤ fuel → '<' ∉ cs →
      stripTagsFuel fuel cs = cs := by
  intro fuel
  induction fuel with
  | zero =>
    intro cs hl _
    rw [List.eq_nil_of_length_eq_zero (Nat.le_zero.mp hl)]
    rfl
  | succ fuel ih =>
    intro cs hl hmem
    cases cs with
    | nil => rfl
    | cons c rest =>
      have hc : ¬(c = '<') := fun hcc => hmem (hcc ▸ List.mem_cons_self c rest)
      have hrest : rest.length ≤ fuel := by
        simp only [List.length_cons] at hl
        omega
      simp only [stripTagsFuel, if_neg hc]
      rw [ih rest hrest (fun hm => hmem (List.mem_cons_of_mem _ hm))]

theorem findCiLit_none_cons {lit : List Char} {c : Char} {rest : List Char}
    (h : findCiLit lit (c :: rest) = none) :
    (ciPrefixDrop lit (c :: rest)).isSome = false ∧ findCiLit lit rest = none := by
  by_cases h1 : (ciPrefixDrop lit (c :: rest)).isSome = true
  · exfalso
    simp [findCiLit, h1] at h
  · have h1f : (ciPrefixDrop lit (c :: rest)).isSome = false := by simpa using h1
    refine ⟨h1f, ?_⟩
    simp only [findCiLit, h1f, Bool.false_eq_true, if_false, Option.map_eq_none'] at h
    exact h

theorem replaceCiLitFuel_no_occurrence {lit repl : List Char} :
    ∀ (fuel : Nat) (cs : List Char), cs.length ≤ fuel → findCiLit lit cs = none →
      replaceCiLitFuel lit repl fuel cs = cs := by
  intro fuel
  induction fuel with
  | zero =>
    intro cs hl _
    rw [List.eq_nil_of_length_eq_zero (Nat.le_zero.mp hl)]
    rfl
  | succ fuel ih =>
    intro cs hl hocc
    cases cs with
    | nil => rfl
    | cons c rest =>
      obtain ⟨h1, h2⟩ := findCiLit_none_cons hocc
      have hrest : rest.length ≤ fuel := by
        simp only [List.length_cons] at hl
        omega
      simp only [replaceCiLitFuel, h1, Bool.false_eq_true, if_false]
      rw [ih rest hrest h2]

/-- C9 (amended): on already-plain input — no `<` character (hence no HTML
tags) and no case-insensitive occurrence of any of the six decoded entity
literals — `stripHtmlToText` returns the input changed only by the whitespace
collapsing and trimming steps. -/
theorem stripHtmlToText_plain_identity (s : String)
    (htag : '<' ∉ s.data)
    (h1 : hasCiLit nbspLit s.data = false)
    (h2 : hasCiLit ampLit s.data = false)
    (h3 : hasCiLit quotLit s.data = false)
    (h4 : hasCiLit aposLit s.data = false)
    (h5 : hasCiLit ltLit s.data = false)
    (h6 : hasCiLit gtLit s.data = false) :
    stripHtmlToText s = whitespaceNormalize s := by
  have toNone : ∀ lit : List Char, hasCiLit lit s.data = false →
      findCiLit lit s.data = none := by
    intro lit hfalse
    cases hfl : findCiLit lit s.data with
    | none => rfl
    | some v => simp [hasCiLit, hfl] at hfalse
  have e1 : removeDelimBlocks scriptOpen scriptClose true s.data = s.data :=
    removeDelimBlocksFuel_no_lt _ _ (le_refl _) htag
  have e2 : removeDelimBlocks styleOpen styleClose true s.data = s.data :=
    removeDelimBlocksFuel_no_lt _ _ (le_refl _) htag
  have e3 : removeDelimBlocks commentOpen commentClose false s.data = s.data :=
    removeDelimBlocksFuel_no_lt _ _ (le_refl _) htag
  have e4 : replaceBlockCloses s.data = s.data :=
    replaceBlockClosesFuel_no_lt _ _ (le_refl _) htag
  have e5 : stripTags s.data = s.data :=
    stripTagsFuel_no_lt _ _ (le_refl _) htag
  have e6 : replaceCiLit nbspLit [' '] s.data = s.data :=
    replaceCiLitFuel_no_occurrence _ _ (le_refl _) (toNone _ h1)
  have e7 : replaceCiLit ampLit ['&'] s.data = s.data :=
    replaceCiLitFuel_no_occurrence _ _ (le_refl _) (toNone _ h2)
  have e8 : replaceCiLit quotLit [Char.ofNat 34] s.data = s.data :=
    replaceCiLitFuel_no_occurrence _ _ (le_refl _) (toNone _ h3)
  have e9 : replaceCiLit aposLit [Char.ofNat 39] s.data = s.data :=
    replaceCiLitFuel_no_occurrence _ _ (le_refl _) (toNone _ h4)
  have e10 : replaceCiLit ltLit ['<'] s.data = s.data :=
    replaceCiLitFuel_no_occurrence _ _ (le_refl _) (toNone _ h5)
  have e11 : replaceCiLit gtLit ['>'] s.data = s.data :=
    replaceCiLitFuel_no_occurrence _ _ (le_refl _) (toNone _ h6)
  simp only [stripHtmlToText, whitespaceNormalize]
  rw [e1, e2, e3, e4, e5, e6, e7, e8, e9, e10, e11]

/-- Witness for `stripHtmlToText_plain_identity` at a concrete plain text. -/
theorem stripHtmlToText_plain_identity_witness :
    stripHtmlToText "hello   world" = whitespaceNormalize "hello   world" :=
  stripHtmlToText_plain_identity "hello   world" (by decide) (by decide) (by decide)
    (by decide) (by decide) (by decide) (by decide)

/-- C9 counterexample: the tag-free plain text `a &amp; b` is not returned
modulo whitespace collapsing and trimming — the entity-decoding steps rewrite
it to `a & b`. -/
theorem stripHtmlToText_entity_counterexample :
    ('<' ∉ "a &amp; b".data) ∧
    stripHtmlToText "a &amp; b" = "a & b" ∧
    whitespaceNormalize "a &amp; b" = "a &amp; b" ∧
    stripHtmlToText "a &amp; b" ≠ whitespaceNormalize "a &amp; b" := by decide

/-- Witness for `orchestration_article_priority` at a concrete input with
non-empty article text. -/
theorem orchestration_article_priority_witness :
    (orchestrate ⟨"t", false, false, [], some "ARTICLE"⟩).text = "ARTICLE" ∧
    (orchestrate ⟨"t", false, false, [], some "ARTICLE"⟩).textKind = "article" := by
  have h := orchestration_article_priority ⟨"t", false, false, [], some "ARTICLE"⟩
  refine ⟨?_, ?_⟩
  · have h1 := h.1 (by decide)
    simpa using h1
  · rw [h.2]
    decide
